import Mathlib

/-!
# Verification of the simdutf wrapper's UTF-8 boundary scanner

Shallow embedding of `src/buffer/src/nativeInterop/cinterop/simdutf_wrapper.cpp`.
Byte buffers are modelled as `List Nat` (each element a byte value); the
`(const char*, size_t)` pairs of the C code become a single list whose length
plays the role of the `length` argument.

The boundary scanner `buf_simdutf_utf8_find_boundary` is implemented in the
wrapper itself and is embedded directly from its source.  The validator,
size estimator and transcoder delegate to the external simdutf library, whose
code is not part of this repository; those three are modelled from the spec.
-/

set_option maxRecDepth 8000

namespace SimdutfWrapper

/-- Lead-byte classification used by `buf_simdutf_utf8_find_boundary`
(the `seq_len` if-chain of the source): expected sequence length of a lead
byte, or `none` for an invalid lead byte. -/
def seqLen (b : Nat) : Option Nat :=
  if b < 0x80 then some 1
  else if b &&& 0xE0 = 0xC0 then some 2
  else if b &&& 0xF0 = 0xE0 then some 3
  else if b &&& 0xF8 = 0xF0 then some 4
  else none

/-- Backward scan loop of `buf_simdutf_utf8_find_boundary`
(`for (size_t i = length; i > check_start;) { i--; ... }`): the argument is
the loop variable `i` before the decrement; falling out of the loop returns
`check_start`. -/
def boundaryLoop (buffer : List Nat) (length check_start : Nat) : Nat → Nat
  | 0 => check_start
  | i + 1 =>
    if i + 1 ≤ check_start then check_start
    else if (buffer.getD i 0) &&& 0xC0 ≠ 0x80 then
      match seqLen (buffer.getD i 0) with
      | some sl => if sl ≤ length - i then length else i
      | none => i
    else boundaryLoop buffer length check_start i

/-- Embedding of `buf_simdutf_utf8_find_boundary(buffer, length)`. -/
def buf_simdutf_utf8_find_boundary (buffer : List Nat) : Nat :=
  if buffer.length = 0 then 0
  else if buffer.getD (buffer.length - 1) 0 < 0x80 then buffer.length
  else
    boundaryLoop buffer buffer.length
      (if buffer.length > 4 then buffer.length - 4 else 0) buffer.length

/-- Modelled from the spec: strict UTF-8 decoding as used by
`simdutf::validate_utf8` / `utf16_length_from_utf8` /
`convert_utf8_to_utf16le`, whose implementation lives in the external simdutf
library.  Decodes a byte list into the list of its code points, each paired
with the byte segment that encodes it; rejects overlong encodings, surrogate
code points, code points above U+10FFFF, stray continuation bytes and
truncated sequences. -/
def utf8DecodeSegs : List Nat → Option (List (Nat × List Nat))
  | [] => some []
  | b :: rest =>
    if b < 0x80 then
      (utf8DecodeSegs rest).map (fun segs => (b, [b]) :: segs)
    else if b < 0xC2 then none
    else if b < 0xE0 then
      match rest with
      | c1 :: rest2 =>
        if 0x80 ≤ c1 ∧ c1 < 0xC0 then
          (utf8DecodeSegs rest2).map
            (fun segs => ((b - 0xC0) * 64 + (c1 - 0x80), [b, c1]) :: segs)
        else none
      | [] => none
    else if b < 0xF0 then
      match rest with
      | [] => none
      | c1 :: rest2 =>
        match rest2 with
        | [] => none
        | c2 :: rest3 =>
          if (0x80 ≤ c1 ∧ c1 < 0xC0) ∧ (0x80 ≤ c2 ∧ c2 < 0xC0) then
            if 0x800 ≤ (b - 0xE0) * 4096 + (c1 - 0x80) * 64 + (c2 - 0x80) ∧
                ¬(0xD800 ≤ (b - 0xE0) * 4096 + (c1 - 0x80) * 64 + (c2 - 0x80) ∧
                  (b - 0xE0) * 4096 + (c1 - 0x80) * 64 + (c2 - 0x80) < 0xE000) then
              (utf8DecodeSegs rest3).map
                (fun segs =>
                  ((b - 0xE0) * 4096 + (c1 - 0x80) * 64 + (c2 - 0x80),
                    [b, c1, c2]) :: segs)
            else none
          else none
    else if b < 0xF5 then
      match rest with
      | [] => none
      | c1 :: rest2 =>
        match rest2 with
        | [] => none
        | c2 :: rest3 =>
          match rest3 with
          | [] => none
          | c3 :: rest4 =>
            if (0x80 ≤ c1 ∧ c1 < 0xC0) ∧ (0x80 ≤ c2 ∧ c2 < 0xC0) ∧
                (0x80 ≤ c3 ∧ c3 < 0xC0) then
              if 0x10000 ≤ (b - 0xF0) * 262144 + (c1 - 0x80) * 4096 +
                    (c2 - 0x80) * 64 + (c3 - 0x80) ∧
                  (b - 0xF0) * 262144 + (c1 - 0x80) * 4096 +
                    (c2 - 0x80) * 64 + (c3 - 0x80) < 0x110000 then
                (utf8DecodeSegs rest4).map
                  (fun segs =>
                    ((b - 0xF0) * 262144 + (c1 - 0x80) * 4096 +
                      (c2 - 0x80) * 64 + (c3 - 0x80), [b, c1, c2, c3]) :: segs)
              else none
            else none
    else none

/-- Modelled from the spec: `is_valid_utf8(bytes, length)` — true iff the
byte sequence decodes under strict UTF-8 rules. -/
def is_valid_utf8 (s : List Nat) : Bool :=
  (utf8DecodeSegs s).isSome

/-- Number of UTF-16 code units needed for one code point (2 for code points
above the Basic Multilingual Plane, else 1). -/
def utf16UnitsOf (cp : Nat) : Nat :=
  if cp < 0x10000 then 1 else 2

/-- Modelled from the spec: `utf16_length_from_utf8(bytes, length)` — exact
number of UTF-16 code units required by the decoded text. -/
def utf16_length_from_utf8 (s : List Nat) : Nat :=
  match utf8DecodeSegs s with
  | some segs => (segs.map (fun p => utf16UnitsOf p.1)).sum
  | none => 0

/-- UTF-16 encoding of one code point: itself for the Basic Multilingual
Plane, a surrogate pair otherwise. -/
def utf16EncodeCp (cp : Nat) : List Nat :=
  if cp < 0x10000 then [cp]
  else [0xD800 + (cp - 0x10000) / 0x400, 0xDC00 + (cp - 0x10000) % 0x400]

/-- Modelled from the spec: `convert_utf8_to_utf16le(bytes, length, output)` —
the sequence of UTF-16 code units written to the output buffer; its length is
the returned `units_written`. -/
def convert_utf8_to_utf16le (s : List Nat) : List Nat :=
  match utf8DecodeSegs s with
  | some segs => (segs.map (fun p => utf16EncodeCp p.1)).flatten
  | none => []

/-- Bytes of a decoded segment list, in order. -/
def joinBytes (segs : List (Nat × List Nat)) : List Nat :=
  (segs.map Prod.snd).flatten

/-- Well-formedness of one decoded segment: the shape invariants the strict
decoder guarantees for each code point's byte segment. -/
def segOK : Nat × List Nat → Prop
  | (cp, [b]) => b < 0x80 ∧ cp = b
  | (cp, [b, c1]) =>
      0xC2 ≤ b ∧ b < 0xE0 ∧ (0x80 ≤ c1 ∧ c1 < 0xC0) ∧
      cp = (b - 0xC0) * 64 + (c1 - 0x80)
  | (cp, [b, c1, c2]) =>
      0xE0 ≤ b ∧ b < 0xF0 ∧ (0x80 ≤ c1 ∧ c1 < 0xC0) ∧ (0x80 ≤ c2 ∧ c2 < 0xC0) ∧
      cp = (b - 0xE0) * 4096 + (c1 - 0x80) * 64 + (c2 - 0x80) ∧
      0x800 ≤ cp ∧ ¬(0xD800 ≤ cp ∧ cp < 0xE000)
  | (cp, [b, c1, c2, c3]) =>
      0xF0 ≤ b ∧ b < 0xF5 ∧ (0x80 ≤ c1 ∧ c1 < 0xC0) ∧ (0x80 ≤ c2 ∧ c2 < 0xC0) ∧
      (0x80 ≤ c3 ∧ c3 < 0xC0) ∧
      cp = (b - 0xF0) * 262144 + (c1 - 0x80) * 4096 + (c2 - 0x80) * 64 + (c3 - 0x80) ∧
      0x10000 ≤ cp ∧ cp < 0x110000
  | _ => False

/-- Modelled from the spec: "the prefix contains no truncated trailing
multi-byte sequence" — there is a position `i` whose byte starts a multi-byte
sequence (a lead byte with a known expected length), every byte after it is a
continuation byte, and fewer bytes than the expected sequence length remain. -/
def truncTail (u : List Nat) : Bool :=
  decide (∃ i, i < u.length ∧
    (∀ q, q < u.length → i < q → (u.getD q 0) &&& 0xC0 = 0x80) ∧
    (u.getD i 0) &&& 0xC0 ≠ 0x80 ∧ seqLen (u.getD i 0) ≠ none ∧
    u.length - i < (seqLen (u.getD i 0)).getD 0)

/-- Modelled from the spec: "no invalid lead byte anywhere in its final few
bytes (within its last 4 bytes)" — a non-continuation byte in the last 4
positions that matches none of the lead-byte patterns. -/
def invalidLeadTail (u : List Nat) : Bool :=
  decide (∃ i, i < u.length ∧ u.length - i ≤ 4 ∧
    (u.getD i 0) &&& 0xC0 ≠ 0x80 ∧ seqLen (u.getD i 0) = none)

/-! ## Byte classification bridges between bit masks and value ranges -/

theorem cont_of_range {b : Nat} (h1 : 0x80 ≤ b) (h2 : b < 0xC0) :
    b &&& 0xC0 = 0x80 := by
  have : ∀ x, x < 0xC0 → (0x80 ≤ x → x &&& 0xC0 = 0x80) := by decide
  exact this b h2 h1

theorem ge_of_cont {b : Nat} (h : b &&& 0xC0 = 0x80) : 0x80 ≤ b := by
  rw [← h]; exact Nat.and_le_left

theorem not_cont_of_lt {b : Nat} (h : b < 0x80) : b &&& 0xC0 ≠ 0x80 := by
  have hle : b &&& 0xC0 ≤ b := Nat.and_le_left
  omega

theorem not_cont_of_lead {b : Nat} (h1 : 0xC0 ≤ b) (h2 : b < 0xF8) :
    b &&& 0xC0 ≠ 0x80 := by
  have : ∀ x, x < 0xF8 → (0xC0 ≤ x → x &&& 0xC0 ≠ 0x80) := by decide
  exact this b h2 h1

theorem seqLen_of_lt {b : Nat} (h : b < 0x80) : seqLen b = some 1 := by
  unfold seqLen; rw [if_pos h]

theorem seqLen_two {b : Nat} (h1 : 0xC0 ≤ b) (h2 : b < 0xE0) :
    seqLen b = some 2 := by
  have : ∀ x, x < 0xE0 → (0xC0 ≤ x → seqLen x = some 2) := by decide
  exact this b h2 h1

theorem seqLen_three {b : Nat} (h1 : 0xE0 ≤ b) (h2 : b < 0xF0) :
    seqLen b = some 3 := by
  have : ∀ x, x < 0xF0 → (0xE0 ≤ x → seqLen x = some 3) := by decide
  exact this b h2 h1

theorem seqLen_four {b : Nat} (h1 : 0xF0 ≤ b) (h2 : b < 0xF8) :
    seqLen b = some 4 := by
  have : ∀ x, x < 0xF8 → (0xF0 ≤ x → seqLen x = some 4) := by decide
  exact this b h2 h1

/-! ## Behaviour of the backward scan loop -/

theorem boundaryLoop_step (u : List Nat) (n cs i : Nat) :
    boundaryLoop u n cs (i + 1) =
      if i + 1 ≤ cs then cs
      else if (u.getD i 0) &&& 0xC0 ≠ 0x80 then
        match seqLen (u.getD i 0) with
        | some sl => if sl ≤ n - i then n else i
        | none => i
      else boundaryLoop u n cs i := rfl

theorem boundaryLoop_skip (u : List Nat) (n cs i : Nat) (hcs : cs ≤ i) :
    ∀ m, (∀ q, i < q → q < i + 1 + m → (u.getD q 0) &&& 0xC0 = 0x80) →
      boundaryLoop u n cs (i + 1 + m) = boundaryLoop u n cs (i + 1) := by
  intro m
  induction m with
  | zero => intro _; rfl
  | succ m ih =>
    intro h
    have hq : (u.getD (i + 1 + m) 0) &&& 0xC0 = 0x80 := h _ (by omega) (by omega)
    have he : i + 1 + (m + 1) = (i + 1 + m) + 1 := by omega
    rw [he, boundaryLoop_step, if_neg (by omega), if_neg (not_not_intro hq)]
    exact ih (fun q h1 h2 => h q h1 (by omega))

theorem boundaryLoop_lead (u : List Nat) (n cs i : Nat) (hcs : cs ≤ i)
    (hnc : (u.getD i 0) &&& 0xC0 ≠ 0x80) :
    boundaryLoop u n cs (i + 1) =
      match seqLen (u.getD i 0) with
      | some sl => if sl ≤ n - i then n else i
      | none => i := by
  rw [boundaryLoop_step, if_neg (by omega), if_pos hnc]

theorem boundaryLoop_all_cont (u : List Nat) (n cs : Nat) :
    ∀ m, (∀ q, cs ≤ q → q < cs + m → (u.getD q 0) &&& 0xC0 = 0x80) →
      boundaryLoop u n cs (cs + m) = cs := by
  intro m
  induction m with
  | zero =>
    intro _
    rw [Nat.add_zero]
    cases cs with
    | zero => rfl
    | succ k => rw [boundaryLoop_step, if_pos (Nat.le_refl _)]
  | succ m ih =>
    intro h
    have hq : (u.getD (cs + m) 0) &&& 0xC0 = 0x80 := h _ (by omega) (by omega)
    have he : cs + (m + 1) = (cs + m) + 1 := by omega
    rw [he, boundaryLoop_step]
    by_cases hc : (cs + m) + 1 ≤ cs
    · rw [if_pos hc]
    · rw [if_neg hc, if_neg (not_not_intro hq)]
      exact ih (fun q h1 h2 => h q h1 (by omega))

theorem boundaryLoop_bounds (u : List Nat) (n cs : Nat) (hcs : cs ≤ n) :
    ∀ idx, idx ≤ n → cs ≤ boundaryLoop u n cs idx ∧ boundaryLoop u n cs idx ≤ n := by
  intro idx
  induction idx with
  | zero =>
    intro _
    exact ⟨Nat.le_refl cs, hcs⟩
  | succ i ih =>
    intro hle
    rw [boundaryLoop_step]
    by_cases h1 : i + 1 ≤ cs
    · rw [if_pos h1]; exact ⟨Nat.le_refl cs, hcs⟩
    · rw [if_neg h1]
      by_cases h2 : (u.getD i 0) &&& 0xC0 ≠ 0x80
      · rw [if_pos h2]
        cases hs : seqLen (u.getD i 0) with
        | none => simp only [hs]; omega
        | some sl =>
          simp only [hs]
          by_cases h3 : sl ≤ n - i
          · rw [if_pos h3]; exact ⟨hcs, Nat.le_refl n⟩
          · rw [if_neg h3]; omega
      · rw [if_neg h2]; exact ih (by omega)

/-! ## Scanner behaviour on a chunk ending in a lead byte plus continuations -/

theorem getD_mem_of_lt {t : List Nat} {k : Nat} (hk : k < t.length) :
    t.getD k 0 ∈ t := by
  rw [List.getD_eq_getElem t 0 hk]; exact List.getElem_mem hk

theorem getD_lead (p : List Nat) (L : Nat) (t : List Nat) :
    (p ++ L :: t).getD p.length 0 = L := by
  rw [List.getD_append_right p (L :: t) 0 p.length (Nat.le_refl _), Nat.sub_self]
  rfl

theorem getD_tail (p : List Nat) (L : Nat) (t : List Nat) (q : Nat)
    (h1 : p.length < q) (_h2 : q < (p ++ L :: t).length) :
    (p ++ L :: t).getD q 0 = t.getD (q - p.length - 1) 0 := by
  rw [List.getD_append_right p (L :: t) 0 q (by omega)]
  have : q - p.length = (q - p.length - 1) + 1 := by omega
  rw [this]
  rfl

theorem length_append_cons (p : List Nat) (L : Nat) (t : List Nat) :
    (p ++ L :: t).length = p.length + t.length + 1 := by
  simp [List.length_append]
  omega

/-- Behaviour of the full scanner on a chunk whose tail is a (possibly empty)
run of continuation bytes preceded by a non-continuation byte, when the last
byte rules out the ASCII fast path. -/
theorem fb_scan (p : List Nat) (L : Nat) (t : List Nat)
    (ht : ∀ b ∈ t, b &&& 0xC0 = 0x80)
    (hlen : t.length ≤ 3)
    (hL : L &&& 0xC0 ≠ 0x80)
    (hlast : ¬ (p ++ L :: t).getD ((p ++ L :: t).length - 1) 0 < 0x80) :
    buf_simdutf_utf8_find_boundary (p ++ L :: t) =
      match seqLen L with
      | some sl => if sl ≤ t.length + 1 then (p ++ L :: t).length else p.length
      | none => p.length := by
  have hn : (p ++ L :: t).length = p.length + t.length + 1 :=
    length_append_cons p L t
  have hne : (p ++ L :: t).length ≠ 0 := by omega
  unfold buf_simdutf_utf8_find_boundary
  rw [if_neg hne, if_neg hlast]
  have hcs :
      (if (p ++ L :: t).length > 4 then (p ++ L :: t).length - 4 else 0) ≤ p.length := by
    by_cases h : (p ++ L :: t).length > 4
    · rw [if_pos h]; omega
    · rw [if_neg h]; omega
  have hwin : ∀ q, p.length < q → q < p.length + 1 + t.length →
      ((p ++ L :: t).getD q 0) &&& 0xC0 = 0x80 := by
    intro q h1 h2
    rw [getD_tail p L t q h1 (by omega)]
    exact ht _ (getD_mem_of_lt (by omega))
  have hstart : (p ++ L :: t).length = p.length + 1 + t.length := by omega
  rw [hstart]
  have hcs2 : (if p.length + 1 + t.length > 4 then p.length + 1 + t.length - 4 else 0) ≤
      p.length := by
    by_cases h : p.length + 1 + t.length > 4
    · rw [if_pos h]; omega
    · rw [if_neg h]; omega
  rw [boundaryLoop_skip _ _ _ _ hcs2 t.length hwin,
    boundaryLoop_lead _ _ _ _ hcs2 (by rw [getD_lead]; exact hL), getD_lead]
  have harith : p.length + 1 + t.length - p.length = t.length + 1 := by omega
  rw [harith]

/-! ## Structure of successful strict decodings -/

theorem joinBytes_nil : joinBytes [] = [] := rfl

theorem joinBytes_cons (cp : Nat) (c : List Nat) (segs : List (Nat × List Nat)) :
    joinBytes ((cp, c) :: segs) = c ++ joinBytes segs := by
  simp [joinBytes]

/-- Every successful strict decoding reproduces the input bytes and yields
only well-formed segments. -/
theorem utf8DecodeSegs_sound :
    ∀ (s : List Nat) (segs : List (Nat × List Nat)), utf8DecodeSegs s = some segs →
      joinBytes segs = s ∧ ∀ p ∈ segs, segOK p := by
  have main : ∀ (n : Nat) (s : List Nat) (segs : List (Nat × List Nat)),
      s.length ≤ n → utf8DecodeSegs s = some segs →
      joinBytes segs = s ∧ ∀ p ∈ segs, segOK p := by
    intro n
    induction n with
    | zero =>
      intro s segs hlen h
      cases s with
      | nil =>
        rw [utf8DecodeSegs] at h
        simp only [Option.some.injEq] at h
        subst h
        exact ⟨rfl, by simp⟩
      | cons b rest => simp only [List.length_cons] at hlen; omega
    | succ n ih =>
      intro s segs hlen h
      cases s with
      | nil =>
        rw [utf8DecodeSegs] at h
        simp only [Option.some.injEq] at h
        subst h
        exact ⟨rfl, by simp⟩
      | cons b rest =>
        simp only [List.length_cons] at hlen
        rw [utf8DecodeSegs.eq_def] at h
        dsimp only [] at h
        by_cases h1 : b < 0x80
        · rw [if_pos h1, Option.map_eq_some'] at h
          obtain ⟨segs', hrec, hmap⟩ := h
          obtain ⟨hjoin, hOK⟩ := ih rest segs' (by omega) hrec
          subst hmap
          refine ⟨?_, ?_⟩
          · rw [joinBytes_cons, hjoin]; rfl
          · intro p hp
            rcases List.mem_cons.mp hp with hh | hh
            · subst hh; exact ⟨h1, rfl⟩
            · exact hOK p hh
        · rw [if_neg h1] at h
          by_cases h2 : b < 0xC2
          · rw [if_pos h2] at h; simp at h
          · rw [if_neg h2] at h
            by_cases h3 : b < 0xE0
            · rw [if_pos h3] at h
              cases rest with
              | nil => simp at h
              | cons c1 rest2 =>
                simp only [] at h
                by_cases hc : 0x80 ≤ c1 ∧ c1 < 0xC0
                · rw [if_pos hc, Option.map_eq_some'] at h
                  obtain ⟨segs', hrec, hmap⟩ := h
                  obtain ⟨hjoin, hOK⟩ := ih rest2 segs'
                    (by simp only [List.length_cons] at hlen; omega) hrec
                  subst hmap
                  refine ⟨?_, ?_⟩
                  · rw [joinBytes_cons, hjoin]; rfl
                  · intro p hp
                    rcases List.mem_cons.mp hp with hh | hh
                    · subst hh; exact ⟨by omega, h3, hc, rfl⟩
                    · exact hOK p hh
                · rw [if_neg hc] at h; simp at h
            · rw [if_neg h3] at h
              by_cases h4 : b < 0xF0
              · rw [if_pos h4] at h
                cases rest with
                | nil => simp at h
                | cons c1 rest' =>
                  cases rest' with
                  | nil => simp at h
                  | cons c2 rest3 =>
                    simp only [] at h
                    by_cases hc : (0x80 ≤ c1 ∧ c1 < 0xC0) ∧ (0x80 ≤ c2 ∧ c2 < 0xC0)
                    · rw [if_pos hc] at h
                      by_cases hcp : 0x800 ≤ (b - 0xE0) * 4096 + (c1 - 0x80) * 64 + (c2 - 0x80) ∧
                          ¬(0xD800 ≤ (b - 0xE0) * 4096 + (c1 - 0x80) * 64 + (c2 - 0x80) ∧
                            (b - 0xE0) * 4096 + (c1 - 0x80) * 64 + (c2 - 0x80) < 0xE000)
                      · rw [if_pos hcp, Option.map_eq_some'] at h
                        obtain ⟨segs', hrec, hmap⟩ := h
                        obtain ⟨hjoin, hOK⟩ := ih rest3 segs'
                          (by simp only [List.length_cons] at hlen; omega) hrec
                        subst hmap
                        refine ⟨?_, ?_⟩
                        · rw [joinBytes_cons, hjoin]; rfl
                        · intro p hp
                          rcases List.mem_cons.mp hp with hh | hh
                          · subst hh
                            exact ⟨by omega, h4, hc.1, hc.2, rfl, hcp.1, hcp.2⟩
                          · exact hOK p hh
                      · rw [if_neg hcp] at h; simp at h
                    · rw [if_neg hc] at h; simp at h
              · rw [if_neg h4] at h
                by_cases h5 : b < 0xF5
                · rw [if_pos h5] at h
                  cases rest with
                  | nil => simp at h
                  | cons c1 rest' =>
                    cases rest' with
                    | nil => simp at h
                    | cons c2 rest'' =>
                      cases rest'' with
                      | nil => simp at h
                      | cons c3 rest4 =>
                        simp only [] at h
                        by_cases hc : (0x80 ≤ c1 ∧ c1 < 0xC0) ∧
                            (0x80 ≤ c2 ∧ c2 < 0xC0) ∧ (0x80 ≤ c3 ∧ c3 < 0xC0)
                        · rw [if_pos hc] at h
                          by_cases hcp : 0x10000 ≤ (b - 0xF0) * 262144 +
                                (c1 - 0x80) * 4096 + (c2 - 0x80) * 64 + (c3 - 0x80) ∧
                              (b - 0xF0) * 262144 + (c1 - 0x80) * 4096 +
                                (c2 - 0x80) * 64 + (c3 - 0x80) < 0x110000
                          · rw [if_pos hcp, Option.map_eq_some'] at h
                            obtain ⟨segs', hrec, hmap⟩ := h
                            obtain ⟨hjoin, hOK⟩ := ih rest4 segs'
                              (by simp only [List.length_cons] at hlen; omega) hrec
                            subst hmap
                            refine ⟨?_, ?_⟩
                            · rw [joinBytes_cons, hjoin]; rfl
                            · intro p hp
                              rcases List.mem_cons.mp hp with hh | hh
                              · subst hh
                                exact ⟨by omega, h5, hc.1, hc.2.1, hc.2.2, rfl,
                                  hcp.1, hcp.2⟩
                              · exact hOK p hh
                          · rw [if_neg hcp] at h; simp at h
                        · rw [if_neg hc] at h; simp at h
                · rw [if_neg h5] at h; simp at h
  intro s segs h
  exact main s.length s segs (Nat.le_refl _) h

/-- Decoding a well-formed segment followed by anything consumes exactly that
segment first. -/
theorem utf8DecodeSegs_append (cp : Nat) (c v : List Nat) (hOK : segOK (cp, c)) :
    utf8DecodeSegs (c ++ v) =
      (utf8DecodeSegs v).map (fun segs => (cp, c) :: segs) := by
  cases c with
  | nil => exact absurd hOK (by simp [segOK])
  | cons b c' =>
    cases c' with
    | nil =>
      obtain ⟨hb, hcp⟩ := hOK
      subst hcp
      show utf8DecodeSegs (cp :: v) = _
      rw [utf8DecodeSegs.eq_def]
      dsimp only []
      rw [if_pos hb]
    | cons c1 c'' =>
      cases c'' with
      | nil =>
        obtain ⟨hb1, hb2, hc1, hcp⟩ := hOK
        subst hcp
        show utf8DecodeSegs (b :: c1 :: v) = _
        rw [utf8DecodeSegs.eq_def]
        dsimp only []
        rw [if_neg (by omega), if_neg (by omega), if_pos hb2, if_pos hc1]
      | cons c2 c''' =>
        cases c''' with
        | nil =>
          obtain ⟨hb1, hb2, hc1, hc2, hcp, hlo, hsur⟩ := hOK
          subst hcp
          show utf8DecodeSegs (b :: c1 :: c2 :: v) = _
          rw [utf8DecodeSegs.eq_def]
          dsimp only []
          rw [if_neg (by omega), if_neg (by omega), if_neg (by omega),
            if_pos hb2, if_pos ⟨hc1, hc2⟩, if_pos ⟨hlo, hsur⟩]
        | cons c3 c'''' =>
          cases c'''' with
          | nil =>
            obtain ⟨hb1, hb2, hc1, hc2, hc3, hcp, hlo, hhi⟩ := hOK
            subst hcp
            show utf8DecodeSegs (b :: c1 :: c2 :: c3 :: v) = _
            rw [utf8DecodeSegs.eq_def]
            dsimp only []
            rw [if_neg (by omega), if_neg (by omega), if_neg (by omega),
              if_neg (by omega), if_pos hb2, if_pos ⟨hc1, hc2, hc3⟩,
              if_pos ⟨hlo, hhi⟩]
          | cons c4 r => exact absurd hOK (by simp [segOK])

/-- A list of well-formed segments decodes to itself. -/
theorem utf8DecodeSegs_joinBytes :
    ∀ (segs : List (Nat × List Nat)), (∀ p ∈ segs, segOK p) →
      utf8DecodeSegs (joinBytes segs) = some segs := by
  intro segs
  induction segs with
  | nil => intro _; rfl
  | cons seg rest ih =>
    intro h
    obtain ⟨cp, c⟩ := seg
    rw [joinBytes_cons, utf8DecodeSegs_append cp c _ (h _ (by simp)),
      ih (fun p hp => h p (by simp [hp]))]
    rfl

/-- Shape of a well-formed segment as seen by the boundary scanner: one
non-continuation byte followed by `seqLen`-many-minus-one continuation
bytes. -/
theorem segOK_structure (cp : Nat) (c : List Nat) (h : segOK (cp, c)) :
    ∃ L t, c = L :: t ∧ L &&& 0xC0 ≠ 0x80 ∧ (∀ b ∈ t, b &&& 0xC0 = 0x80) ∧
      seqLen L = some (t.length + 1) ∧ t.length ≤ 3 ∧
      (t = [] → L < 0x80) ∧ (t ≠ [] → 0xC2 ≤ L ∧ L < 0xF8) := by
  cases c with
  | nil => exact absurd h (by simp [segOK])
  | cons b c' =>
    cases c' with
    | nil =>
      obtain ⟨hb, _⟩ := h
      exact ⟨b, [], rfl, not_cont_of_lt hb, by simp, by
        rw [seqLen_of_lt hb]; rfl, by simp, fun _ => hb, by simp⟩
    | cons c1 c'' =>
      cases c'' with
      | nil =>
        obtain ⟨hb1, hb2, hc1, _⟩ := h
        refine ⟨b, [c1], rfl, not_cont_of_lead (by omega) (by omega), ?_, ?_, by simp,
          by simp, fun _ => ⟨hb1, by omega⟩⟩
        · intro x hx
          simp only [List.mem_singleton] at hx
          subst hx
          exact cont_of_range hc1.1 hc1.2
        · rw [seqLen_two (by omega) hb2]; rfl
      | cons c2 c''' =>
        cases c''' with
        | nil =>
          obtain ⟨hb1, hb2, hc1, hc2, _, _, _⟩ := h
          refine ⟨b, [c1, c2], rfl, not_cont_of_lead (by omega) (by omega), ?_, ?_,
            by simp, by simp, fun _ => ⟨by omega, by omega⟩⟩
          · intro x hx
            rcases List.mem_cons.mp hx with hh | hh
            · subst hh; exact cont_of_range hc1.1 hc1.2
            · simp only [List.mem_singleton] at hh
              subst hh; exact cont_of_range hc2.1 hc2.2
          · rw [seqLen_three hb1 hb2]; rfl
        | cons c3 c'''' =>
          cases c'''' with
          | nil =>
            obtain ⟨hb1, hb2, hc1, hc2, hc3, _, _, _⟩ := h
            refine ⟨b, [c1, c2, c3], rfl, not_cont_of_lead (by omega) (by omega), ?_, ?_,
              by simp, by simp, fun _ => ⟨by omega, by omega⟩⟩
            · intro x hx
              rcases List.mem_cons.mp hx with hh | hh
              · subst hh; exact cont_of_range hc1.1 hc1.2
              rcases List.mem_cons.mp hh with hh2 | hh2
              · subst hh2; exact cont_of_range hc2.1 hc2.2
              · simp only [List.mem_singleton] at hh2
                subst hh2; exact cont_of_range hc3.1 hc3.2
            · rw [seqLen_four hb1 (by omega)]; rfl
          | cons c4 r => exact absurd h (by simp [segOK])

theorem joinBytes_append (x y : List (Nat × List Nat)) :
    joinBytes (x ++ y) = joinBytes x ++ joinBytes y := by
  simp [joinBytes]

/-- Any nonempty valid byte sequence ends with a well-shaped final segment. -/
theorem valid_lastSeg (s : List Nat) (segs : List (Nat × List Nat))
    (h : utf8DecodeSegs s = some segs) (hne : s ≠ []) :
    ∃ p L t, s = p ++ L :: t ∧ L &&& 0xC0 ≠ 0x80 ∧ (∀ b ∈ t, b &&& 0xC0 = 0x80) ∧
      seqLen L = some (t.length + 1) ∧ t.length ≤ 3 ∧ (t = [] → L < 0x80) ∧
      (t ≠ [] → 0xC2 ≤ L ∧ L < 0xF8) := by
  obtain ⟨hjoin, hOK⟩ := utf8DecodeSegs_sound s segs h
  rcases List.eq_nil_or_concat segs with hnil | ⟨a, last, hconcat⟩
  · subst hnil
    exact absurd hjoin.symm hne
  · rw [List.concat_eq_append] at hconcat
    subst hconcat
    obtain ⟨cp, c⟩ := last
    obtain ⟨L, t, hc, hL, ht, hseq, hlen, hascii, hmulti⟩ :=
      segOK_structure cp c (hOK _ (by simp))
    subst hc
    refine ⟨joinBytes a, L, t, ?_, hL, ht, hseq, hlen, hascii, hmulti⟩
    rw [← hjoin, joinBytes_append]
    simp [joinBytes]

theorem getD_last_append (p : List Nat) (L : Nat) (t : List Nat) :
    (p ++ L :: t).getD ((p ++ L :: t).length - 1) 0 =
      if t.length = 0 then L else t.getD (t.length - 1) 0 := by
  by_cases h : t.length = 0
  · have ht : t = [] := List.length_eq_zero.mp h
    subst ht
    rw [if_pos h, length_append_cons]
    have h2 : p.length + ([] : List Nat).length + 1 - 1 = p.length := by simp
    rw [h2, getD_lead]
  · rw [if_neg h, length_append_cons]
    have h1 : p.length + t.length + 1 - 1 = p.length + t.length := by omega
    rw [h1, getD_tail p L t (p.length + t.length) (by omega)
      (by rw [length_append_cons]; omega)]
    congr 1
    omega

/-- The scanner never truncates a fully valid chunk (claim C3's core). -/
theorem fb_of_valid (s : List Nat) (segs : List (Nat × List Nat))
    (h : utf8DecodeSegs s = some segs) :
    buf_simdutf_utf8_find_boundary s = s.length := by
  by_cases hne : s = []
  · subst hne; rfl
  · obtain ⟨p, L, t, hs, hL, ht, hseq, hlen, hascii, hmulti⟩ :=
      valid_lastSeg s segs h hne
    subst hs
    by_cases htl : t = []
    · subst htl
      have hLa : L < 0x80 := hascii rfl
      unfold buf_simdutf_utf8_find_boundary
      rw [if_neg (by rw [length_append_cons]; omega),
        if_pos (by
          rw [getD_last_append, if_pos (show ([] : List Nat).length = 0 from rfl)]
          exact hLa)]
    · have hlast : ¬ (p ++ L :: t).getD ((p ++ L :: t).length - 1) 0 < 0x80 := by
        rw [getD_last_append,
          if_neg (fun hh => htl (List.length_eq_zero.mp hh))]
        have hmem : t.getD (t.length - 1) 0 ∈ t :=
          getD_mem_of_lt (by
            have : t.length ≠ 0 := fun hh => htl (List.length_eq_zero.mp hh)
            omega)
        have := ge_of_cont (ht _ hmem)
        omega
      rw [fb_scan p L t ht hlen hL hlast, hseq]
      dsimp only []
      rw [if_pos (Nat.le_refl _)]

/-- The scanner truncates a chunk ending in a strict prefix of a well-formed
multi-byte segment exactly at that segment's start (claim C1's core). -/
theorem fb_of_cut (p0 : List Nat) (cp : Nat) (c : List Nat) (j : Nat)
    (hOK : segOK (cp, c)) (hj0 : 0 < j) (hj1 : j < c.length) :
    buf_simdutf_utf8_find_boundary (p0 ++ c.take j) = p0.length := by
  obtain ⟨L, t, hc, hL, ht, hseq, hlen, hascii, hmulti⟩ := segOK_structure cp c hOK
  subst hc
  have hclen : (L :: t).length = t.length + 1 := rfl
  have htne : t ≠ [] := by
    intro hh
    subst hh
    simp at hj1
    omega
  have hjj : j = (j - 1) + 1 := by omega
  rw [hjj, List.take_succ_cons]
  have htake_len : (t.take (j - 1)).length = j - 1 := by
    rw [List.length_take]
    simp only [hclen] at hj1
    omega
  have ht' : ∀ b ∈ t.take (j - 1), b &&& 0xC0 = 0x80 :=
    fun b hb => ht b (List.take_subset _ t hb)
  have hlast : ¬ (p0 ++ L :: t.take (j - 1)).getD
      ((p0 ++ L :: t.take (j - 1)).length - 1) 0 < 0x80 := by
    rw [getD_last_append]
    by_cases hj1' : j = 1
    · rw [if_pos (by rw [htake_len]; omega)]
      have := hmulti htne
      omega
    · rw [if_neg (by rw [htake_len]; omega)]
      have hmem : (t.take (j - 1)).getD ((t.take (j - 1)).length - 1) 0 ∈
          t.take (j - 1) :=
        getD_mem_of_lt (by rw [htake_len]; omega)
      have := ge_of_cont (ht' _ hmem)
      omega
  rw [fb_scan p0 L (t.take (j - 1)) ht' (by rw [htake_len]; simp only [hclen] at hj1; omega)
    hL hlast, hseq]
  dsimp only []
  rw [if_neg (by rw [htake_len]; simp only [hclen] at hj1; omega)]

/-- Any cut point of a segment list lies either exactly between segments or
strictly inside one segment. -/
theorem cut_decomp :
    ∀ (segs : List (Nat × List Nat)) (k : Nat), k ≤ (joinBytes segs).length →
      (∃ a d, segs = a ++ d ∧ k = (joinBytes a).length) ∨
      (∃ a cp c d j, segs = a ++ (cp, c) :: d ∧ 0 < j ∧ j < c.length ∧
        k = (joinBytes a).length + j) := by
  intro segs
  induction segs with
  | nil =>
    intro k hk
    left
    refine ⟨[], [], rfl, ?_⟩
    have hk0 : k = 0 := by
      simp [joinBytes] at hk
      omega
    simp [joinBytes, hk0]
  | cons seg rest ih =>
    intro k hk
    obtain ⟨cp, c⟩ := seg
    by_cases h1 : k < c.length
    · by_cases h0 : k = 0
      · left
        exact ⟨[], (cp, c) :: rest, rfl, by simp [joinBytes, h0]⟩
      · right
        exact ⟨[], cp, c, rest, k, rfl, by omega, h1, by simp [joinBytes]⟩
    · have hlen : (joinBytes ((cp, c) :: rest)).length =
          c.length + (joinBytes rest).length := by
        rw [joinBytes_cons]
        simp
      rcases ih (k - c.length) (by omega) with ⟨a, d, hseg, hke⟩ |
        ⟨a, cp', c', d, j, hseg, hj0, hj1, hke⟩
      · left
        refine ⟨(cp, c) :: a, d, by rw [hseg]; rfl, ?_⟩
        rw [joinBytes_cons]
        simp only [List.length_append]
        omega
      · right
        refine ⟨(cp, c) :: a, cp', c', d, j, by rw [hseg]; rfl, hj0, hj1, ?_⟩
        rw [joinBytes_cons]
        simp only [List.length_append]
        omega

/-- Taking `k` bytes of a segment list cut strictly inside segment `c` yields
the earlier segments' bytes plus a strict nonempty prefix of `c`. -/
theorem take_at_cut (a : List (Nat × List Nat)) (cp : Nat) (c : List Nat)
    (d : List (Nat × List Nat)) (j : Nat) (hj : j ≤ c.length) :
    (joinBytes (a ++ (cp, c) :: d)).take ((joinBytes a).length + j) =
      joinBytes a ++ c.take j := by
  rw [joinBytes_append, joinBytes_cons, List.take_append_eq_append_take,
    List.take_of_length_le (by omega), Nat.add_sub_cancel_left,
    List.take_append_of_le_length hj]

/-- The scanner's result always lies between `length - 4` and `length`. -/
theorem fb_bounds (u : List Nat) :
    u.length - 4 ≤ buf_simdutf_utf8_find_boundary u ∧
    buf_simdutf_utf8_find_boundary u ≤ u.length := by
  unfold buf_simdutf_utf8_find_boundary
  by_cases h0 : u.length = 0
  · rw [if_pos h0]; omega
  · rw [if_neg h0]
    by_cases h1 : u.getD (u.length - 1) 0 < 0x80
    · rw [if_pos h1]; omega
    · rw [if_neg h1]
      have hcs : (if u.length > 4 then u.length - 4 else 0) ≤ u.length := by
        by_cases h : u.length > 4
        · rw [if_pos h]; omega
        · rw [if_neg h]; omega
      have hb := boundaryLoop_bounds u u.length _ hcs u.length (Nat.le_refl _)
      have hlow : u.length - 4 ≤ (if u.length > 4 then u.length - 4 else 0) := by
        by_cases h : u.length > 4
        · rw [if_pos h]
        · rw [if_neg h]; omega
      omega

/-- Splitting a valid sequence anywhere, the scanner's boundary on the first
piece never exceeds the cut and the retained prefix is itself valid. -/
theorem fb_take_spec (s : List Nat) (segs : List (Nat × List Nat))
    (h : utf8DecodeSegs s = some segs) (k : Nat) (hk : k ≤ s.length) :
    buf_simdutf_utf8_find_boundary (s.take k) ≤ k ∧
    (utf8DecodeSegs ((s.take k).take (buf_simdutf_utf8_find_boundary (s.take k)))).isSome
      = true := by
  obtain ⟨hjoin, hOK⟩ := utf8DecodeSegs_sound s segs h
  subst hjoin
  rcases cut_decomp segs k hk with ⟨a, d, hseg, hke⟩ |
    ⟨a, cp, c, d, j, hseg, hj0, hj1, hke⟩
  · subst hseg
    subst hke
    have htake : (joinBytes (a ++ d)).take (joinBytes a).length = joinBytes a := by
      rw [joinBytes_append]
      exact List.take_left _ _
    rw [htake]
    have hvalid : utf8DecodeSegs (joinBytes a) = some a :=
      utf8DecodeSegs_joinBytes a (fun p hp => hOK p (by simp [hp]))
    have hfb : buf_simdutf_utf8_find_boundary (joinBytes a) = (joinBytes a).length :=
      fb_of_valid _ a hvalid
    rw [hfb, List.take_length]
    exact ⟨Nat.le_refl _, by rw [hvalid]; rfl⟩
  · subst hseg
    subst hke
    have htake := take_at_cut a cp c d j (by omega)
    rw [htake]
    have hOKc : segOK (cp, c) := hOK _ (by simp)
    have hfb := fb_of_cut (joinBytes a) cp c j hOKc hj0 hj1
    rw [hfb]
    have htakepre : (joinBytes a ++ c.take j).take (joinBytes a).length = joinBytes a :=
      List.take_left _ _
    rw [htakepre]
    have hvalid : utf8DecodeSegs (joinBytes a) = some a :=
      utf8DecodeSegs_joinBytes a (fun p hp => hOK p (by simp [hp]))
    exact ⟨by omega, by rw [hvalid]; rfl⟩

/-- Every byte of a valid sequence is a continuation byte or a recognised
lead byte. -/
theorem valid_byte_class (u : List Nat) (segs : List (Nat × List Nat))
    (h : utf8DecodeSegs u = some segs) :
    ∀ b ∈ u, (b &&& 0xC0 = 0x80) ∨ seqLen b ≠ none := by
  obtain ⟨hjoin, hOK⟩ := utf8DecodeSegs_sound u segs h
  intro b hb
  rw [← hjoin] at hb
  unfold joinBytes at hb
  rw [List.mem_flatten] at hb
  obtain ⟨l, hl, hbl⟩ := hb
  rw [List.mem_map] at hl
  obtain ⟨seg, hseg, hsnd⟩ := hl
  obtain ⟨cp, c⟩ := seg
  obtain ⟨L, t, hc, hL, ht, hseq, _, _, _⟩ := segOK_structure cp c (hOK _ hseg)
  subst hsnd
  rw [hc] at hbl
  rcases List.mem_cons.mp hbl with hh | hh
  · subst hh
    right
    rw [hseq]
    simp
  · exact Or.inl (ht _ hh)

/-- A valid byte sequence has no truncated trailing sequence and no invalid
lead byte near its end. -/
theorem valid_no_bad_tail (u : List Nat) (segs : List (Nat × List Nat))
    (h : utf8DecodeSegs u = some segs) :
    truncTail u = false ∧ invalidLeadTail u = false := by
  constructor
  · rw [truncTail, decide_eq_false_iff_not]
    intro ⟨i, hi, hwin, hnc, hsome, hlt⟩
    have hne : u ≠ [] := by
      intro hh
      subst hh
      simp at hi
    obtain ⟨p, L, t, hs, hL, ht, hseq, hlen, _, _⟩ := valid_lastSeg u segs h hne
    subst hs
    have hn : (p ++ L :: t).length = p.length + t.length + 1 := length_append_cons p L t
    rcases Nat.lt_trichotomy i p.length with hcmp | hcmp | hcmp
    · have := hwin p.length (by omega) hcmp
      rw [getD_lead] at this
      exact hL this
    · subst hcmp
      rw [getD_lead] at hsome hlt
      rw [hseq] at hlt
      simp only [Option.getD_some] at hlt
      omega
    · have hgd := getD_tail p L t i hcmp hi
      rw [hgd] at hnc
      have hmem : t.getD (i - p.length - 1) 0 ∈ t := getD_mem_of_lt (by omega)
      exact hnc (ht _ hmem)
  · rw [invalidLeadTail, decide_eq_false_iff_not]
    intro ⟨i, hi, _, hnc, hnone⟩
    have hmem : u.getD i 0 ∈ u := getD_mem_of_lt hi
    rcases valid_byte_class u segs h _ hmem with hh | hh
    · exact hnc hh
    · exact hh hnone

/-! ## Claim theorems -/

/-- C1: for every valid UTF-8 byte sequence and every truncation point `k`
that cuts strictly inside a multi-byte code point (the segment `c` at
position `(joinBytes a).length` in the decomposition), the boundary scanner
applied to the prefix of length `k` returns the start offset of the cut code
point. -/
theorem claim_C1 (s : List Nat) (segs a d : List (Nat × List Nat)) (cp : Nat)
    (c : List Nat) (j k : Nat)
    (hdec : utf8DecodeSegs s = some segs)
    (hsplit : segs = a ++ (cp, c) :: d)
    (_hmulti : 2 ≤ c.length)
    (hk : k = (joinBytes a).length + j) (hj0 : 0 < j) (hj1 : j < c.length) :
    buf_simdutf_utf8_find_boundary (s.take k) = (joinBytes a).length := by
  obtain ⟨hjoin, hOK⟩ := utf8DecodeSegs_sound s segs hdec
  subst hsplit
  subst hk
  rw [← hjoin, take_at_cut a cp c d j (by omega)]
  exact fb_of_cut (joinBytes a) cp c j (hOK _ (by simp)) hj0 hj1

/-- Witness for C1: the spec's own example, `"a€"` with the final byte of the
3-byte `€` cut off; the scanner returns 1, the start offset of `€`. -/
theorem claim_C1_witness :
    buf_simdutf_utf8_find_boundary ([0x61, 0xE2, 0x82, 0xAC].take 3) =
      (joinBytes [(0x61, [0x61])]).length :=
  claim_C1 [0x61, 0xE2, 0x82, 0xAC]
    [(0x61, [0x61]), (0x20AC, [0xE2, 0x82, 0xAC])]
    [(0x61, [0x61])] [] 0x20AC [0xE2, 0x82, 0xAC] 2 3
    (by decide) (by decide) (by decide) (by decide) (by decide) (by decide)

/-- C2: splitting a valid UTF-8 sequence at any offset `k`, the boundary `b`
returned for the first piece satisfies `b ≤ k`, reassembling the three slices
reproduces the original sequence, and the retained prefix is itself valid
UTF-8. -/
theorem claim_C2 (s : List Nat) (k : Nat) (hvalid : is_valid_utf8 s = true)
    (hk : k ≤ s.length) :
    buf_simdutf_utf8_find_boundary (s.take k) ≤ k ∧
    (s.take k).take (buf_simdutf_utf8_find_boundary (s.take k)) ++
      (s.take k).drop (buf_simdutf_utf8_find_boundary (s.take k)) ++ s.drop k = s ∧
    is_valid_utf8 ((s.take k).take (buf_simdutf_utf8_find_boundary (s.take k)))
      = true := by
  rw [is_valid_utf8] at hvalid
  obtain ⟨segs, hsegs⟩ := Option.isSome_iff_exists.mp hvalid
  obtain ⟨hle, hpre⟩ := fb_take_spec s segs hsegs k hk
  refine ⟨hle, ?_, hpre⟩
  rw [List.take_append_drop, List.take_append_drop]

/-- Witness for C2 at the spec's example split. -/
theorem claim_C2_witness :
    buf_simdutf_utf8_find_boundary ([0x61, 0xE2, 0x82, 0xAC].take 3) ≤ 3 ∧
    ([0x61, 0xE2, 0x82, 0xAC].take 3).take
        (buf_simdutf_utf8_find_boundary ([0x61, 0xE2, 0x82, 0xAC].take 3)) ++
      ([0x61, 0xE2, 0x82, 0xAC].take 3).drop
        (buf_simdutf_utf8_find_boundary ([0x61, 0xE2, 0x82, 0xAC].take 3)) ++
      [0x61, 0xE2, 0x82, 0xAC].drop 3 = [0x61, 0xE2, 0x82, 0xAC] ∧
    is_valid_utf8 (([0x61, 0xE2, 0x82, 0xAC].take 3).take
      (buf_simdutf_utf8_find_boundary ([0x61, 0xE2, 0x82, 0xAC].take 3))) = true :=
  claim_C2 [0x61, 0xE2, 0x82, 0xAC] 3 (by decide) (by decide)

/-- C3: the boundary scanner never truncates a chunk that is valid UTF-8 in
its entirety — it returns the chunk's full length. -/
theorem claim_C3 (s : List Nat) (hvalid : is_valid_utf8 s = true) :
    buf_simdutf_utf8_find_boundary s = s.length := by
  rw [is_valid_utf8] at hvalid
  obtain ⟨segs, hsegs⟩ := Option.isSome_iff_exists.mp hvalid
  exact fb_of_valid s segs hsegs

/-- Witness for C3 on the complete 3-byte `€`. -/
theorem claim_C3_witness :
    buf_simdutf_utf8_find_boundary [0xE2, 0x82, 0xAC] = [0xE2, 0x82, 0xAC].length :=
  claim_C3 [0xE2, 0x82, 0xAC] (by decide)

/-- C4 as stated is false: on the input `[0xE2, 0x82, 0xE2, 0x82]` the scanner
returns 2, and the retained prefix `[0xE2, 0x82]` itself ends in a truncated
3-byte sequence. -/
theorem claim_C4_counterexample :
    ¬ (truncTail ([0xE2, 0x82, 0xE2, 0x82].take
          (buf_simdutf_utf8_find_boundary [0xE2, 0x82, 0xE2, 0x82])) = false ∧
        invalidLeadTail ([0xE2, 0x82, 0xE2, 0x82].take
          (buf_simdutf_utf8_find_boundary [0xE2, 0x82, 0xE2, 0x82])) = false) := by
  decide

/-- C4 amended: for chunks that are truncations of a valid UTF-8 sequence
(the scanner's intended streaming use), the prefix it retains contains no
truncated trailing multi-byte sequence and no invalid lead byte in its final
bytes. -/
theorem claim_C4_amended (s : List Nat) (k : Nat) (hvalid : is_valid_utf8 s = true)
    (hk : k ≤ s.length) :
    truncTail ((s.take k).take (buf_simdutf_utf8_find_boundary (s.take k))) = false ∧
    invalidLeadTail ((s.take k).take (buf_simdutf_utf8_find_boundary (s.take k)))
      = false := by
  rw [is_valid_utf8] at hvalid
  obtain ⟨segs, hsegs⟩ := Option.isSome_iff_exists.mp hvalid
  obtain ⟨_, hpre⟩ := fb_take_spec s segs hsegs k hk
  obtain ⟨segs', hsegs'⟩ := Option.isSome_iff_exists.mp hpre
  exact valid_no_bad_tail _ segs' hsegs'

/-- Witness for the amended C4. -/
theorem claim_C4_amended_witness :
    truncTail (([0x61, 0xE2, 0x82, 0xAC].take 3).take
      (buf_simdutf_utf8_find_boundary ([0x61, 0xE2, 0x82, 0xAC].take 3))) = false ∧
    invalidLeadTail (([0x61, 0xE2, 0x82, 0xAC].take 3).take
      (buf_simdutf_utf8_find_boundary ([0x61, 0xE2, 0x82, 0xAC].take 3))) = false :=
  claim_C4_amended [0x61, 0xE2, 0x82, 0xAC] 3 (by decide) (by decide)

/-- C5: the scanner is total and in range — the boundary is at most the
length, never below `length - 4` even on structurally invalid input, and the
empty input yields 0. -/
theorem claim_C5 (u : List Nat) :
    buf_simdutf_utf8_find_boundary u ≤ u.length ∧
    u.length - 4 ≤ buf_simdutf_utf8_find_boundary u ∧
    buf_simdutf_utf8_find_boundary ([] : List Nat) = 0 :=
  ⟨(fb_bounds u).2, (fb_bounds u).1, rfl⟩

/-- C6: a chunk ending in an ASCII byte is never truncated, regardless of the
contents of any earlier bytes. -/
theorem claim_C6 (u : List Nat) (hne : u ≠ [])
    (hlast : u.getD (u.length - 1) 0 < 0x80) :
    buf_simdutf_utf8_find_boundary u = u.length := by
  unfold buf_simdutf_utf8_find_boundary
  rw [if_neg (fun hh => hne (List.length_eq_zero.mp hh)), if_pos hlast]

/-- Witness for C6: invalid garbage before a final ASCII byte. -/
theorem claim_C6_witness :
    buf_simdutf_utf8_find_boundary [0xFF, 0x41] = [0xFF, 0x41].length :=
  claim_C6 [0xFF, 0x41] (by decide) (by decide)

/-- C7: when the backward walk's first non-continuation byte (at index
`p.length`, within the last 4 bytes) matches none of the lead-byte patterns,
the scanner returns that index — the same truncation index used for an
incomplete sequence. -/
theorem claim_C7 (p : List Nat) (L : Nat) (t : List Nat)
    (ht : ∀ b ∈ t, (b &&& 0xC0) = 0x80)
    (hlen : t.length ≤ 3)
    (hnc : (L &&& 0xC0) ≠ 0x80)
    (h1 : ¬ L < 0x80) (h2 : L &&& 0xE0 ≠ 0xC0)
    (h3 : L &&& 0xF0 ≠ 0xE0) (h4 : L &&& 0xF8 ≠ 0xF0) :
    buf_simdutf_utf8_find_boundary (p ++ L :: t) = p.length := by
  have hseqnone : seqLen L = none := by
    unfold seqLen
    rw [if_neg h1, if_neg h2, if_neg h3, if_neg h4]
  have hlast : ¬ (p ++ L :: t).getD ((p ++ L :: t).length - 1) 0 < 0x80 := by
    rw [getD_last_append]
    by_cases hh : t.length = 0
    · rw [if_pos hh]; exact h1
    · rw [if_neg hh]
      have hmem : t.getD (t.length - 1) 0 ∈ t := getD_mem_of_lt (by omega)
      have := ge_of_cont (ht _ hmem)
      omega
  rw [fb_scan p L t ht hlen hnc hlast, hseqnone]

/-- Witness for C7: `0xF8` is an invalid lead byte; the scanner truncates
right before it. -/
theorem claim_C7_witness :
    buf_simdutf_utf8_find_boundary ([0x61] ++ 0xF8 :: []) = [0x61].length :=
  claim_C7 [0x61] 0xF8 [] (by decide) (by decide) (by decide) (by decide)
    (by decide) (by decide) (by decide)

/-- C8: when every byte of the scanned window is a continuation byte, the
scanner returns `length - 4` (which is 0 for inputs of length at most 4). -/
theorem claim_C8 (u : List Nat) (hne : u ≠ [])
    (hcont : ∀ q, u.length - 4 ≤ q → q < u.length → (u.getD q 0) &&& 0xC0 = 0x80) :
    buf_simdutf_utf8_find_boundary u = u.length - 4 := by
  have hn0 : u.length ≠ 0 := fun hh => hne (List.length_eq_zero.mp hh)
  have hlastc := hcont (u.length - 1) (by omega) (by omega)
  have hlast : ¬ u.getD (u.length - 1) 0 < 0x80 := by
    have := ge_of_cont hlastc
    omega
  unfold buf_simdutf_utf8_find_boundary
  rw [if_neg hn0, if_neg hlast]
  have hcseq : (if u.length > 4 then u.length - 4 else 0) = u.length - 4 := by
    by_cases h : u.length > 4
    · rw [if_pos h]
    · rw [if_neg h]; omega
  rw [hcseq]
  have hall := boundaryLoop_all_cont u u.length (u.length - 4)
    (u.length - (u.length - 4))
    (fun q hq1 hq2 => hcont q (by omega) (by omega))
  have harg : (u.length - 4) + (u.length - (u.length - 4)) = u.length := by omega
  rw [harg] at hall
  exact hall

/-- Witness for C8: two bare continuation bytes yield boundary 0. -/
theorem claim_C8_witness :
    buf_simdutf_utf8_find_boundary [0x80, 0x80] = [0x80, 0x80].length - 4 :=
  claim_C8 [0x80, 0x80] (by decide) (by decide)

/-- C9: on valid UTF-8 input, the number of UTF-16 code units written by the
transcoder equals the size estimator's count. -/
theorem claim_C9 (s : List Nat) (hvalid : is_valid_utf8 s = true) :
    (convert_utf8_to_utf16le s).length = utf16_length_from_utf8 s := by
  rw [is_valid_utf8] at hvalid
  obtain ⟨segs, hsegs⟩ := Option.isSome_iff_exists.mp hvalid
  rw [convert_utf8_to_utf16le, utf16_length_from_utf8, hsegs]
  dsimp only []
  rw [List.length_flatten, List.map_map]
  have : ∀ (l : List (Nat × List Nat)),
      (l.map (List.length ∘ fun p => utf16EncodeCp p.1)).sum =
      (l.map fun p => utf16UnitsOf p.1).sum := by
    intro l
    induction l with
    | nil => rfl
    | cons x xs ih =>
      simp only [List.map_cons, List.sum_cons, ih]
      congr 1
      show (utf16EncodeCp x.1).length = utf16UnitsOf x.1
      rw [utf16EncodeCp, utf16UnitsOf]
      by_cases hx : x.1 < 0x10000
      · rw [if_pos hx, if_pos hx]; rfl
      · rw [if_neg hx, if_neg hx]; rfl
  exact this segs

/-- Witness for C9 on the complete `€`: one code unit both ways. -/
theorem claim_C9_witness :
    (convert_utf8_to_utf16le [0xE2, 0x82, 0xAC]).length =
      utf16_length_from_utf8 [0xE2, 0x82, 0xAC] :=
  claim_C9 [0xE2, 0x82, 0xAC] (by decide)

/-- C10: whenever the scanner truncates, the retained suffix is at most 4
bytes. -/
theorem claim_C10 (u : List Nat)
    (h : buf_simdutf_utf8_find_boundary u < u.length) :
    u.length - buf_simdutf_utf8_find_boundary u ≤ 4 := by
  have := (fb_bounds u).1
  omega

/-- Witness for C10 on the spec's truncation example. -/
theorem claim_C10_witness :
    [0x61, 0xE2, 0x82].length - buf_simdutf_utf8_find_boundary [0x61, 0xE2, 0x82] ≤ 4 :=
  claim_C10 [0x61, 0xE2, 0x82] (by decide)

end SimdutfWrapper
